import Mathlib

/-!
# Verification of the CSV → spreadsheet reconciliation core (`src/main.py`)

A shallow embedding of the pure reconciliation core of `main.py`:
row normalization (`normalize_row`), row comparison (`rows_are_different`),
field-level merge (`merge_rows`), maximum-id scan (`get_max_id`), Python
`int()` key parsing, the identity index built by `process_and_update`
(lines 166-176), the per-row classifier (lines 180-197), the write plan
(updates with a trailing timestamp column, appends with a separator row,
lines 199-249), and the configuration validation (lines 92-106).

Rows are lists of strings; the Python dict is modelled as an association
list where later insertions shadow earlier ones (lookup takes the most
recent binding, which is exactly the dict's overwrite semantics).
Timestamps (`datetime.now()`) are passed in as explicit string parameters.
-/

/-- The characters stripped by Python's `str.strip()` / skipped by `int()`:
space, tab, newline, carriage return, vertical tab, form feed. -/
def isPySpace (c : Char) : Bool :=
  c == ' ' || c == '\t' || c == '\n' || c == '\r' ||
  c == Char.ofNat 11 || c == Char.ofNat 12

/-- Python truthiness/blank test used by `merge_rows`
(`if norm_new[i] and norm_new[i].strip():`): a field is blank iff it is
empty or contains only whitespace. -/
def pyBlank (s : String) : Bool :=
  s.data.all isPySpace

/-- Digit run of a Python integer literal after the first digit: underscores
are allowed only singly and only between digits (PEP 515). -/
def pyDigitsAux (acc : Nat) : List Char → Option Nat
  | [] => some acc
  | '_' :: c :: rest =>
      if c.isDigit then pyDigitsAux (10 * acc + (c.toNat - 48)) rest else none
  | c :: rest =>
      if c.isDigit then pyDigitsAux (10 * acc + (c.toNat - 48)) rest else none

/-- A nonempty digit run (with PEP 515 underscores) or `none`. -/
def pyDigits : List Char → Option Nat
  | [] => none
  | c :: rest =>
      if c.isDigit then pyDigitsAux (c.toNat - 48) rest else none

/-- Strip Python whitespace from both ends of a character list. -/
def pyStrip (cs : List Char) : List Char :=
  ((cs.dropWhile isPySpace).reverse.dropWhile isPySpace).reverse

/-- `int(s)` for a decimal string: strip whitespace, optional sign, digits.
Returns `none` where CPython raises `ValueError`. -/
def pyIntList (cs : List Char) : Option Int :=
  match pyStrip cs with
  | '-' :: rest => (pyDigits rest).map (fun n => -(n : Int))
  | '+' :: rest => (pyDigits rest).map (fun n => (n : Int))
  | other => (pyDigits other).map (fun n => (n : Int))

/-- Python `int(s)` on a string field. -/
def pyInt (s : String) : Option Int :=
  pyIntList s.data

/-- The key extraction shared by `get_max_id`, the index build and the
classifier: `if len(row) > id_col_idx: int(row[id_col_idx])` with
`ValueError` caught (`none`). -/
def keyOf (idCol : Nat) (row : List String) : Option Int :=
  if idCol < row.length then pyInt (row.getD idCol "") else none

/-- `normalize_row(row, column_count)` (main.py line 62): pad with empty
strings on the right; a negative pad count in Python yields the empty list,
exactly Nat subtraction here. -/
def normalizeRow (row : List String) (columnCount : Nat) : List String :=
  row ++ List.replicate (columnCount - row.length) ""

/-- `rows_are_different(row1, row2, column_count)` (main.py line 66). -/
def rowsAreDifferent (row1 row2 : List String) (columnCount : Nat) : Bool :=
  decide (normalizeRow row1 columnCount ≠ normalizeRow row2 columnCount)

/-- `merge_rows(existing_row, new_row, column_count)` (main.py line 72):
for each of the first `column_count` columns take the new value when it is
non-blank, otherwise the existing value. -/
def mergeRows (existingRow newRow : List String) (columnCount : Nat) : List String :=
  (List.range columnCount).map (fun i =>
    if pyBlank ((normalizeRow newRow columnCount).getD i "") then
      (normalizeRow existingRow columnCount).getD i ""
    else
      (normalizeRow newRow columnCount).getD i "")

/-- `get_max_id(rows, id_col_index)` (main.py line 49): fold keeping the
largest parsed id seen so far, starting from 0. -/
def getMaxId (rows : List (List String)) (idCol : Nat) : Int :=
  rows.foldl (fun m row =>
    match keyOf idCol row with
    | some v => if m < v then v else m
    | none => m) 0

/-- Python `str.lower()` on one character (ASCII range; the headers this
code meets are ASCII column names). -/
def pyLowerChar (c : Char) : Char :=
  if 'A' ≤ c ∧ c ≤ 'Z' then Char.ofNat (c.toNat + 32) else c

/-- Python `str.lower()`. -/
def pyLower (s : String) : String :=
  String.mk (s.data.map pyLowerChar)

/-- `[h.lower() for h in header].index('id')` with `ValueError` → 0
(main.py lines 160-163). -/
def resolveKeyColumn (header : List String) : Nat :=
  match (header.map pyLower).findIdx? (fun h => h == "id") with
  | some i => i
  | none => 0

/-- One entry of the identity index: key, 1-based sheet position, row. -/
abbrev IndexEntry := Int × Nat × List String

/-- Dict lookup: the most recent binding for `k` (entries are prepended,
so `find?` returns the last write, matching Python dict overwrite). -/
def idxLookup (m : List IndexEntry) (k : Int) : Option (Nat × List String) :=
  (m.find? (fun e => e.1 == k)).map (fun e => e.2)

/-- The identity index build (main.py lines 166-176): for each existing
data row with a parsable id, bind the id to `(idx + 2, row)` (header is
sheet row 1, first data row sheet row 2); later rows overwrite earlier
bindings. -/
def buildIndex (idCol : Nat) (dataRows : List (List String)) : List IndexEntry :=
  dataRows.enum.foldl (fun m e =>
    match keyOf idCol e.2 with
    | some k => (k, e.1 + 2, e.2) :: m
    | none => m) []

/-- Structural form of `buildIndex` used in proofs: entries of later rows
come first, matching the prepend-fold. -/
def buildIndexGo (idCol i : Nat) : List (List String) → List IndexEntry
  | [] => []
  | r :: rs =>
      match keyOf idCol r with
      | some k => buildIndexGo idCol (i + 1) rs ++ [(k, i + 2, r)]
      | none => buildIndexGo idCol (i + 1) rs

/-- One step of the classifier loop (main.py lines 181-197): a keyed row
whose key is indexed is appended to the update list when different
(carrying position, incoming row, stored row), dropped when identical;
an unindexed keyed row is appended to the append list; an unkeyed row is
skipped. -/
def classifyStep (idCol n : Nat) (index : List IndexEntry)
    (acc : List (Nat × List String × List String) × List (List String))
    (row : List String) :
    List (Nat × List String × List String) × List (List String) :=
  match keyOf idCol row with
  | none => acc
  | some k =>
      match idxLookup index k with
      | some (pos, erow) =>
          if rowsAreDifferent erow row n then
            (acc.1 ++ [(pos, row, erow)], acc.2)
          else acc
      | none => (acc.1, acc.2 ++ [row])

/-- The classifier loop over all incoming data rows, producing
(`rows_to_update`, `rows_to_append`). -/
def classifyRows (idCol n : Nat) (index : List IndexEntry)
    (rows : List (List String)) :
    List (Nat × List String × List String) × List (List String) :=
  rows.foldl (classifyStep idCol n index) ([], [])

/-- The separator / audit row (main.py lines 232-235):
`["journal updated at <ts>"] + [""] * (column_count - 1)`. -/
def sepRow (columnCount : Nat) (ts : String) : List String :=
  ("journal updated at " ++ ts) :: List.replicate (columnCount - 1) ""

/-- Step 7 of `process_and_update` (lines 229-246): when `rows_to_append`
is nonempty the separator row is appended and the batch is issued;
otherwise no append call is made (modelled as the empty batch). -/
def finishAppends (rowsToAppend : List (List String)) (columnCount : Nat)
    (sepTs : String) : List (List String) :=
  if rowsToAppend.isEmpty then [] else rowsToAppend ++ [sepRow columnCount sepTs]

/-- A reconciliation plan: update operations (1-based sheet position,
values written) and the append batch, the two outputs handed to the
spreadsheet collaborator. -/
structure Plan where
  updates : List (Nat × List String)
  appends : List (List String)
deriving DecidableEq, Repr

/-- The pure planning core of one `process_and_update` iteration
(main.py steps 3, 5, 6, 7): `none` when the parsed CSV is empty
("CSV is empty, skipping update"); when the fetched store is empty the
whole table including its header is appended (bootstrap); otherwise the
classifier output becomes point updates — each update row is
`merge_rows(existing, new, column_count)` with the update timestamp
appended as an extra trailing column (line 210) — and the append batch.
The two `datetime.now()` timestamps are the parameters `updTs`, `sepTs`. -/
def buildPlan (csvRows existingValues : List (List String))
    (updTs sepTs : String) : Option Plan :=
  match csvRows with
  | [] => none
  | header :: newDataRows =>
      let columnCount := header.length
      if existingValues.isEmpty then
        some ⟨[], finishAppends (header :: newDataRows) columnCount sepTs⟩
      else
        let idCol := resolveKeyColumn header
        let index := buildIndex idCol (existingValues.drop 1)
        let cls := classifyRows idCol columnCount index newDataRows
        some ⟨cls.1.map (fun e => (e.1, mergeRows e.2.2 e.2.1 columnCount ++ [updTs])),
              finishAppends cls.2 columnCount sepTs⟩

/-- Modelled from the spec: the external spreadsheet store (the Google
Sheets collaborator, not part of `src/`). Spec §6: each update operation
is a "(row position, full replacement row)" pair, so applying one sets
the row at that 1-based position. -/
def applyUpdates : List (List String) → List (Nat × List String) → List (List String)
  | store, [] => store
  | store, (pos, vals) :: rest => applyUpdates (store.set (pos - 1) vals) rest

/-- Modelled from the spec: applying a whole plan to the store. Spec §6:
updates are a batched write of full replacement rows, the append batch is
"appended atomically at the end of the target range". -/
def applyPlan (store : List (List String)) (p : Plan) : List (List String) :=
  applyUpdates store p.updates ++ p.appends

/-- Python `s.split(sep)` for a one-character separator: split at every
occurrence, keeping empty pieces (`"".split(';') == ['']`). -/
def pySplitGo (sep : Char) : List Char → List Char → List String
  | [], acc => [String.mk acc.reverse]
  | c :: rest, acc =>
      if c = sep then String.mk acc.reverse :: pySplitGo sep rest []
      else pySplitGo sep rest (c :: acc)

/-- Python `s.split(sep)` on a string, one-character separator. -/
def pySplit (s : String) (sep : Char) : List String :=
  pySplitGo sep s.data []

/-- The configuration validation at the top of `process_and_update`
(main.py lines 92-106): split the semicolon-separated endpoint, sheet and
backup-directory strings, fail with a `ValueError` message on a length
mismatch, and otherwise return the per-pair triples the cycle loop would
process. An empty `LOCAL_BACKUP_DIR` (falsy) yields no backup list. -/
def validateConfig (endpoints sheetNames backupDirs : String) :
    Except String (List (String × String × Option String)) :=
  let urlList := pySplit endpoints ';'
  let sheetList := pySplit sheetNames ';'
  let backupList := if backupDirs == "" then [] else pySplit backupDirs ';'
  if urlList.length ≠ sheetList.length then
    .error ("Endpoint count (" ++ toString urlList.length ++
      ") does not match sheet count (" ++ toString sheetList.length ++ ")")
  else if ¬ backupList.isEmpty ∧ backupList.length ≠ urlList.length then
    .error ("Backup directory count (" ++ toString backupList.length ++
      ") does not match endpoint count (" ++ toString urlList.length ++ ")")
  else
    .ok ((List.range urlList.length).map (fun i =>
      (urlList.getD i "", sheetList.getD i "",
        if backupList.isEmpty then none else some (backupList.getD i ""))))

/-- Derived classifier verdict for one row (main.py lines 181-197). -/
inductive RowClass where
  | skipped
  | isNew
  | changed
  | unchanged
deriving DecidableEq, Repr

/-- The class the loop body assigns to one incoming row. -/
def rowClass (idCol n : Nat) (index : List IndexEntry) (row : List String) :
    RowClass :=
  match keyOf idCol row with
  | none => .skipped
  | some k =>
      match idxLookup index k with
      | none => .isNew
      | some (_, erow) =>
          if rowsAreDifferent erow row n then .changed else .unchanged

/-- The update-list entry a row contributes, if any. -/
def chgEntry (idCol n : Nat) (index : List IndexEntry) (row : List String) :
    Option (Nat × List String × List String) :=
  match keyOf idCol row with
  | none => none
  | some k =>
      match idxLookup index k with
      | none => none
      | some (pos, erow) =>
          if rowsAreDifferent erow row n then some (pos, row, erow) else none

/-- The append-list entry a row contributes, if any. -/
def newEntry (idCol : Nat) (index : List IndexEntry) (row : List String) :
    Option (List String) :=
  match keyOf idCol row with
  | none => none
  | some k =>
      match idxLookup index k with
      | none => some row
      | some _ => none

/-! ## Basic lemmas about normalization, blanks and merge -/

theorem normalizeRow_length (row : List String) (n : Nat) :
    (normalizeRow row n).length = max row.length n := by
  simp [normalizeRow]
  omega

theorem normalizeRow_getD (row : List String) (n i : Nat) :
    (normalizeRow row n).getD i "" = row.getD i "" := by
  unfold normalizeRow
  simp only [List.getD_eq_getElem?_getD]
  rcases Nat.lt_or_ge i row.length with h | h
  · rw [List.getElem?_append_left h]
  · rw [List.getElem?_append_right h, List.getElem?_eq_none_iff.2 h,
      List.getElem?_replicate]
    rcases Nat.lt_or_ge (i - row.length) (n - row.length) with h2 | h2
    · simp [h2]
    · simp [Nat.not_lt.2 h2]

theorem normalizeRow_of_le (row : List String) (n : Nat) (h : n ≤ row.length) :
    normalizeRow row n = row := by
  simp [normalizeRow, Nat.sub_eq_zero_of_le h]

theorem mergeRows_length (e nw : List String) (n : Nat) :
    (mergeRows e nw n).length = n := by
  simp [mergeRows]

theorem mergeRows_getD (e nw : List String) (n i : Nat) (h : i < n) :
    (mergeRows e nw n).getD i "" =
      if pyBlank (nw.getD i "") then e.getD i "" else nw.getD i "" := by
  unfold mergeRows
  rw [List.getD_eq_getElem?_getD, List.getElem?_map, List.getElem?_range h]
  simp only [Option.map_some', Option.getD_some]
  rw [normalizeRow_getD, normalizeRow_getD]

/-- A string that `int()` parses is not blank. -/
theorem pyBlank_pyInt (s : String) (h : pyBlank s = true) : pyInt s = none := by
  have hd : s.data.dropWhile isPySpace = [] := by
    rw [List.dropWhile_eq_nil_iff]
    intro x hx
    exact List.all_eq_true.1 h x hx
  unfold pyInt pyIntList pyStrip
  rw [hd]
  simp [pyDigits]

/-! ## The classifier as two order-preserving filters -/

theorem classifyStep_eq (idCol n : Nat) (index : List IndexEntry)
    (acc : List (Nat × List String × List String) × List (List String))
    (row : List String) :
    classifyStep idCol n index acc row =
      (acc.1 ++ (chgEntry idCol n index row).toList,
       acc.2 ++ (newEntry idCol index row).toList) := by
  unfold classifyStep chgEntry newEntry
  cases hk : keyOf idCol row with
  | none => simp
  | some k =>
      cases hl : idxLookup index k with
      | none => simp [hl]
      | some pe =>
          obtain ⟨pos, erow⟩ := pe
          cases hd : rowsAreDifferent erow row n <;> simp [hl, hd]

theorem classifyRows_foldl (idCol n : Nat) (index : List IndexEntry)
    (rows : List (List String))
    (acc : List (Nat × List String × List String) × List (List String)) :
    rows.foldl (classifyStep idCol n index) acc =
      (acc.1 ++ rows.filterMap (chgEntry idCol n index),
       acc.2 ++ rows.filterMap (newEntry idCol index)) := by
  induction rows generalizing acc with
  | nil => simp
  | cons r rs ih =>
      rw [List.foldl_cons, ih, classifyStep_eq]
      cases hc : chgEntry idCol n index r <;>
        cases hn : newEntry idCol index r <;>
          simp [List.filterMap_cons, hc, hn]

theorem classifyRows_eq (idCol n : Nat) (index : List IndexEntry)
    (rows : List (List String)) :
    classifyRows idCol n index rows =
      (rows.filterMap (chgEntry idCol n index),
       rows.filterMap (newEntry idCol index)) := by
  unfold classifyRows
  rw [classifyRows_foldl]
  simp

/-! ## The identity index: last-wins characterization -/

/-- Position (0-based) and fields of the last row whose key parses to `k`. -/
def lastKeyed (idCol : Nat) (k : Int) : List (List String) → Option (Nat × List String)
  | [] => none
  | r :: rs =>
      match lastKeyed idCol k rs with
      | some e => some (e.1 + 1, e.2)
      | none => if keyOf idCol r = some k then some (0, r) else none

theorem lastKeyed_none_iff (idCol : Nat) (k : Int) (rows : List (List String)) :
    lastKeyed idCol k rows = none ↔ ∀ r ∈ rows, keyOf idCol r ≠ some k := by
  induction rows with
  | nil => simp [lastKeyed]
  | cons r rs ih =>
      unfold lastKeyed
      cases hrec : lastKeyed idCol k rs with
      | some e => simp [ih.symm, hrec]
      | none =>
          rcases eq_or_ne (keyOf idCol r) (some k) with hk | hk
          · simp [hk]
          · simp [hk, ih.symm, hrec]

theorem lastKeyed_some_iff (idCol : Nat) (k : Int) (rows : List (List String))
    (j : Nat) (row : List String) :
    lastKeyed idCol k rows = some (j, row) ↔
      rows[j]? = some row ∧ keyOf idCol row = some k ∧
        ∀ j2 r2, j < j2 → rows[j2]? = some r2 → keyOf idCol r2 ≠ some k := by
  induction rows generalizing j row with
  | nil => simp [lastKeyed]
  | cons r rs ih =>
      unfold lastKeyed
      cases hrec : lastKeyed idCol k rs with
      | some e =>
          obtain ⟨j0, r0⟩ := e
          obtain ⟨hget0, hkey0, hlast0⟩ := (ih j0 r0).1 hrec
          constructor
          · intro h
            rw [Option.some_inj] at h
            injection h with hj hr
            subst hj
            subst hr
            refine ⟨by simpa using hget0, hkey0, ?_⟩
            intro j2 r2 hlt hget
            match j2, hlt with
            | j2 + 1, _ =>
                simp only [List.getElem?_cons_succ] at hget
                exact hlast0 j2 r2 (by omega) hget
          · rintro ⟨hget, hkey, hlast⟩
            match j with
            | 0 =>
                exact absurd hkey0
                  (hlast (j0 + 1) r0 (by omega) (by simpa using hget0))
            | j + 1 =>
                simp only [List.getElem?_cons_succ] at hget
                have hrs : lastKeyed idCol k rs = some (j, row) := by
                  refine (ih j row).2 ⟨hget, hkey, ?_⟩
                  intro j2 r2 hlt hget2
                  exact hlast (j2 + 1) r2 (by omega) (by simpa using hget2)
                rw [hrec, Option.some_inj] at hrs
                injection hrs with hj hr
                rw [Option.some_inj, hj, hr]
      | none =>
          have hnone := (lastKeyed_none_iff idCol k rs).1 hrec
          rcases eq_or_ne (keyOf idCol r) (some k) with hk | hk
          · rw [if_pos hk]
            constructor
            · intro h
              rw [Option.some_inj] at h
              injection h with hj hr
              subst hj
              subst hr
              refine ⟨by simp, hk, ?_⟩
              intro j2 r2 hlt hget
              match j2, hlt with
              | j2 + 1, _ =>
                  simp only [List.getElem?_cons_succ] at hget
                  exact hnone r2 (List.getElem?_mem hget)
            · rintro ⟨hget, hkey, hlast⟩
              match j with
              | 0 =>
                  simp only [List.getElem?_cons_zero, Option.some_inj] at hget
                  rw [hget]
              | j + 1 =>
                  simp only [List.getElem?_cons_succ] at hget
                  exact absurd hkey (hnone row (List.getElem?_mem hget))
          · rw [if_neg hk]
            constructor
            · intro h
              exact absurd h (by simp)
            · rintro ⟨hget, hkey, hlast⟩
              match j with
              | 0 =>
                  simp only [List.getElem?_cons_zero, Option.some_inj] at hget
                  exact absurd (hget ▸ hkey) hk
              | j + 1 =>
                  simp only [List.getElem?_cons_succ] at hget
                  exact absurd hkey (hnone row (List.getElem?_mem hget))

theorem buildIndexGo_foldl (idCol : Nat) (rows : List (List String)) :
    ∀ (i : Nat) (m : List IndexEntry),
      (List.enumFrom i rows).foldl (fun m e =>
        match keyOf idCol e.2 with
        | some k => (k, e.1 + 2, e.2) :: m
        | none => m) m = buildIndexGo idCol i rows ++ m := by
  induction rows with
  | nil => intro i m; simp [buildIndexGo]
  | cons r rs ih =>
      intro i m
      rw [List.enumFrom_cons, List.foldl_cons]
      unfold buildIndexGo
      cases hk : keyOf idCol r with
      | some k => simp only [hk]; rw [ih]; simp
      | none => simp only [hk]; rw [ih]

theorem buildIndex_eq_go (idCol : Nat) (rows : List (List String)) :
    buildIndex idCol rows = buildIndexGo idCol 0 rows := by
  unfold buildIndex
  rw [List.enum_eq_enumFrom, buildIndexGo_foldl]
  simp

theorem buildIndexGo_find (idCol : Nat) (k : Int) (rows : List (List String)) :
    ∀ i : Nat,
      (buildIndexGo idCol i rows).find? (fun x => x.1 == k) =
        (lastKeyed idCol k rows).map (fun e => (k, i + e.1 + 2, e.2)) := by
  induction rows with
  | nil => intro i; simp [buildIndexGo, lastKeyed]
  | cons r rs ih =>
      intro i
      unfold buildIndexGo lastKeyed
      cases hk : keyOf idCol r with
      | some k0 =>
          rw [List.find?_append, ih (i + 1)]
          cases hrec : lastKeyed idCol k rs with
          | some e =>
              obtain ⟨j0, r0⟩ := e
              have : i + 1 + j0 + 2 = i + (j0 + 1) + 2 := by omega
              simp [this]
          | none =>
              rcases eq_or_ne k0 k with hkk | hkk
              · subst hkk
                simp [List.find?, hk]
              · have : (k0 == k) = false := by simp [hkk]
                simp [List.find?, this, hk, Option.ite_none_right_eq_some, hkk]
      | none =>
          rw [ih (i + 1)]
          cases hrec : lastKeyed idCol k rs with
          | some e =>
              obtain ⟨j0, r0⟩ := e
              have : i + 1 + j0 + 2 = i + (j0 + 1) + 2 := by omega
              simp [this]
          | none => simp [hk]

theorem idxLookup_buildIndex (idCol : Nat) (dataRows : List (List String)) (k : Int) :
    idxLookup (buildIndex idCol dataRows) k =
      (lastKeyed idCol k dataRows).map (fun e => (e.1 + 2, e.2)) := by
  unfold idxLookup
  rw [buildIndex_eq_go, buildIndexGo_find]
  cases lastKeyed idCol k dataRows <;> simp

/-- Unpacking a successful index lookup: the position is at least 2, the
stored row sits at that position in the data rows, and its key field
parses back to the key. -/
theorem idxLookup_some_inv (idCol : Nat) (dataRows : List (List String))
    (k : Int) (pos : Nat) (erow : List String)
    (h : idxLookup (buildIndex idCol dataRows) k = some (pos, erow)) :
    2 ≤ pos ∧ dataRows[pos - 2]? = some erow ∧ keyOf idCol erow = some k := by
  rw [idxLookup_buildIndex] at h
  cases hrec : lastKeyed idCol k dataRows with
  | none => rw [hrec] at h; exact absurd h (by simp)
  | some e =>
      obtain ⟨j, r⟩ := e
      rw [hrec] at h
      simp only [Option.map_some', Option.some_inj] at h
      injection h with hp hr
      obtain ⟨hget, hkey, _⟩ := (lastKeyed_some_iff idCol k dataRows j r).1 hrec
      subst hr
      refine ⟨by omega, ?_, hkey⟩
      have : pos - 2 = j := by omega
      rw [this]
      exact hget

/-- A data row whose key parses guarantees the index resolves that key. -/
theorem idxLookup_ne_none_of_mem (idCol : Nat) (dataRows : List (List String))
    (k : Int) (r : List String) (hm : r ∈ dataRows) (hk : keyOf idCol r = some k) :
    idxLookup (buildIndex idCol dataRows) k ≠ none := by
  rw [idxLookup_buildIndex]
  cases hrec : lastKeyed idCol k dataRows with
  | some e => simp
  | none =>
      exact absurd hk ((lastKeyed_none_iff idCol k dataRows).1 hrec r hm)

/-! ## Applying a plan to the store -/

theorem applyUpdates_length (us : List (Nat × List String)) :
    ∀ store : List (List String), (applyUpdates store us).length = store.length := by
  induction us with
  | nil => intro store; rfl
  | cons pv rest ih =>
      intro store
      obtain ⟨pos, vals⟩ := pv
      show (applyUpdates (store.set (pos - 1) vals) rest).length = store.length
      rw [ih]
      exact List.length_set _ _ _

theorem applyUpdates_getElem_zero (us : List (Nat × List String))
    (hus : ∀ pv ∈ us, 2 ≤ pv.1) :
    ∀ store : List (List String), (applyUpdates store us)[0]? = store[0]? := by
  induction us with
  | nil => intro store; rfl
  | cons pv rest ih =>
      intro store
      obtain ⟨pos, vals⟩ := pv
      have h2 : 2 ≤ pos := hus (pos, vals) (List.mem_cons_self _ _)
      show (applyUpdates (store.set (pos - 1) vals) rest)[0]? = store[0]?
      rw [ih (fun pv hm => hus pv (List.mem_cons_of_mem _ hm))]
      exact List.getElem?_set_ne (by omega)

/-- Applying updates that all come from the identity index keeps, at every
indexed position, a row whose key field still parses to that position's
key: an update can only overwrite a row with a merged row carrying the
same key. -/
theorem applyUpdates_keeps_keys (idCol : Nat) (store : List (List String))
    (us : List (Nat × List String)) :
    ∀ st : List (List String),
      (∀ pv ∈ us, ∃ k1 erow1,
          idxLookup (buildIndex idCol (store.drop 1)) k1 = some (pv.1, erow1) ∧
          keyOf idCol pv.2 = some k1) →
      st.length = store.length →
      (∀ k pos erow,
          idxLookup (buildIndex idCol (store.drop 1)) k = some (pos, erow) →
          ∃ row, st[pos - 1]? = some row ∧ keyOf idCol row = some k) →
      ∀ k pos erow,
        idxLookup (buildIndex idCol (store.drop 1)) k = some (pos, erow) →
        ∃ row, (applyUpdates st us)[pos - 1]? = some row ∧ keyOf idCol row = some k := by
  induction us with
  | nil => intro st _ _ hgood k pos erow hl; exact hgood k pos erow hl
  | cons pv rest ih =>
      intro st hus hlen hgood k pos erow hl
      obtain ⟨p, vals⟩ := pv
      obtain ⟨k1, erow1, hl1, hkv⟩ := hus (p, vals) (List.mem_cons_self _ _)
      obtain ⟨hp2, hget1, hkey1⟩ := idxLookup_some_inv idCol (store.drop 1) k1 p erow1 hl1
      show ∃ row, (applyUpdates (st.set (p - 1) vals) rest)[pos - 1]? = some row ∧
        keyOf idCol row = some k
      refine ih (st.set (p - 1) vals)
        (fun pv hm => hus pv (List.mem_cons_of_mem _ hm))
        (by rw [List.length_set]; exact hlen) ?_ k pos erow hl
      intro k2 pos2 erow2 hl2
      obtain ⟨hp2b, hget2, hkey2⟩ := idxLookup_some_inv idCol (store.drop 1) k2 pos2 erow2 hl2
      rcases eq_or_ne pos2 p with hpp | hpp
      · subst hpp
        have heq : erow2 = erow1 := by
          rw [hget1] at hget2
          exact (Option.some_inj.1 hget2).symm
        have hkk : k2 = k1 := by
          rw [heq, hkey1] at hkey2
          exact (Option.some_inj.1 hkey2).symm
        have hbound : pos2 - 1 < st.length := by
          have := List.getElem?_eq_some_iff.1 hget2
          obtain ⟨hlt, _⟩ := this
          rw [hlen]
          have hdl : (store.drop 1).length = store.length - 1 := by
            simp
          omega
        refine ⟨vals, List.getElem?_set_self hbound, ?_⟩
        rw [hkv, hkk]
      · obtain ⟨row, hrow, hkrow⟩ := hgood k2 pos2 erow2 hl2
        refine ⟨row, ?_, hkrow⟩
        rw [List.getElem?_set_ne (by omega)]
        exact hrow

/-! ## Claim theorems -/

/-- C5 (confirmed): `normalize(row, n)` has length `max(len(row), n)`; its
first `len(row)` fields are the fields of `row` unchanged and the remaining
fields are empty strings, so for `len(row) ≤ n` the result has length
exactly `n`, and for `len(row) > n` the pad is empty and the result is
`row` itself (no truncation). -/
theorem c5_normalize_spec (row : List String) (n : Nat) :
    (normalizeRow row n).length = max row.length n ∧
    (normalizeRow row n).take row.length = row ∧
    (normalizeRow row n).drop row.length = List.replicate (n - row.length) "" := by
  refine ⟨normalizeRow_length row n, ?_, ?_⟩
  · unfold normalizeRow
    simp
  · unfold normalizeRow
    simp

/-- C2 (confirmed): `merge(E, N, n)` has length exactly `n`, and its `i`-th
field (`i < n`) is the `i`-th field of `N` normalized to width `n` when
that field is non-blank (blank = empty or whitespace-only, `pyBlank`),
and the `i`-th field of `E` normalized to width `n` otherwise. -/
theorem c2_merge_preservation (existingRow newRow : List String) (n i : Nat)
    (h : i < n) :
    (mergeRows existingRow newRow n).length = n ∧
    (mergeRows existingRow newRow n).getD i "" =
      (if pyBlank ((normalizeRow newRow n).getD i "") then
        (normalizeRow existingRow n).getD i ""
      else (normalizeRow newRow n).getD i "") := by
  refine ⟨mergeRows_length _ _ _, ?_⟩
  rw [mergeRows_getD _ _ _ _ h, normalizeRow_getD, normalizeRow_getD]

theorem c2_witness :
    (mergeRows ["a"] [" "] 2).length = 2 ∧
    (mergeRows ["a"] [" "] 2).getD 0 "" =
      (if pyBlank ((normalizeRow [" "] 2).getD 0 "") then
        (normalizeRow ["a"] 2).getD 0 ""
      else (normalizeRow [" "] 2).getD 0 "") :=
  c2_merge_preservation ["a"] [" "] 2 0 (by decide)

theorem getElem?_eq_some_getD (l : List String) (i : Nat) (h : i < l.length) :
    l[i]? = some (l.getD i "") := by
  rw [List.getElem?_eq_getElem h, List.getD_eq_getElem l "" h]

/-- C9 (confirmed): merging an existing row with an already-merged result
is a fixed point: `merge(E, merge(E, N, n), n) = merge(E, N, n)`. -/
theorem c9_merge_idempotent (existingRow newRow : List String) (n : Nat) :
    mergeRows existingRow (mergeRows existingRow newRow n) n =
      mergeRows existingRow newRow n := by
  apply List.ext_getElem?
  intro i
  rcases Nat.lt_or_ge i n with h | h
  · rw [getElem?_eq_some_getD _ i (by rw [mergeRows_length]; exact h),
      getElem?_eq_some_getD _ i (by rw [mergeRows_length]; exact h),
      mergeRows_getD _ _ _ _ h, mergeRows_getD _ _ _ _ h]
    cases hb : pyBlank (newRow.getD i "") with
    | true =>
        simp only [hb, if_true]
        rw [ite_self]
    | false =>
        simp only [hb, Bool.false_eq_true, if_false]
  · rw [List.getElem?_eq_none_iff.2 (by rw [mergeRows_length]; exact h),
      List.getElem?_eq_none_iff.2 (by rw [mergeRows_length]; exact h)]

theorem getMaxId_foldl (idCol : Nat) (rows : List (List String)) :
    ∀ acc : Int,
      acc ≤ rows.foldl (fun m row =>
        match keyOf idCol row with
        | some v => if m < v then v else m
        | none => m) acc ∧
      (∀ k ∈ rows.filterMap (keyOf idCol),
        k ≤ rows.foldl (fun m row =>
          match keyOf idCol row with
          | some v => if m < v then v else m
          | none => m) acc) ∧
      (rows.foldl (fun m row =>
          match keyOf idCol row with
          | some v => if m < v then v else m
          | none => m) acc = acc ∨
        rows.foldl (fun m row =>
          match keyOf idCol row with
          | some v => if m < v then v else m
          | none => m) acc ∈ rows.filterMap (keyOf idCol)) := by
  induction rows with
  | nil => intro acc; simp
  | cons r rs ih =>
      intro acc
      rw [List.foldl_cons]
      cases hk : keyOf idCol r with
      | none =>
          simp only [hk]
          obtain ⟨h1, h2, h3⟩ := ih acc
          refine ⟨h1, ?_, ?_⟩
          · intro k hkm
            rw [List.filterMap_cons_none hk] at hkm
            exact h2 k hkm
          · rw [List.filterMap_cons_none hk]
            exact h3
      | some v =>
          simp only [hk]
          obtain ⟨h1, h2, h3⟩ := ih (if acc < v then v else acc)
          have hstep : acc ≤ (if acc < v then v else acc) := by
            split <;> omega
          have hv : v ≤ (if acc < v then v else acc) := by
            split <;> omega
          refine ⟨le_trans hstep h1, ?_, ?_⟩
          · intro k hkm
            rw [List.filterMap_cons_some hk] at hkm
            rcases List.mem_cons.1 hkm with hkv | hkm2
            · subst hkv
              exact le_trans hv h1
            · exact h2 k hkm2
          · rw [List.filterMap_cons_some hk]
            rcases h3 with h3 | h3
            · rcases eq_or_ne acc ((if acc < v then v else acc) : Int) with haa | haa
              · exact Or.inl (h3.trans haa.symm)
              · refine Or.inr (List.mem_cons.2 (Or.inl ?_))
                rw [h3]
                split at haa
                · split <;> omega
                · omega
            · exact Or.inr (List.mem_cons.2 (Or.inr h3))

/-- C7 (corrected): `get_max_id` returns the maximum of 0 and all parsed
integer keys: the result is nonnegative, bounds every parsed key, and is
either 0 or itself a parsed key.  (The original claim — that it returns
the maximum key whenever any key parses — fails when all keys are
negative.) -/
theorem c7_get_max_id_amended (rows : List (List String)) (idCol : Nat) :
    0 ≤ getMaxId rows idCol ∧
    (∀ k ∈ rows.filterMap (keyOf idCol), k ≤ getMaxId rows idCol) ∧
    (getMaxId rows idCol = 0 ∨ getMaxId rows idCol ∈ rows.filterMap (keyOf idCol)) :=
  getMaxId_foldl idCol rows 0

/-- C7 counterexample: a store whose only key is `-5` has maximum key
`-5`, but `get_max_id` returns `0`. -/
theorem c7_counterexample :
    getMaxId [["-5"]] 0 = 0 ∧
    [["-5"]].filterMap (keyOf 0) = [(-5 : Int)] ∧
    getMaxId [["-5"]] 0 ≠ (-5 : Int) := by
  refine ⟨by decide, by decide, by decide⟩

/-- C8 (confirmed): a mismatch between the semicolon-separated endpoint
and sheet lists, or a nonempty backup-directory list whose length differs
from the endpoint list, makes `process_and_update` raise a `ValueError`
during validation — `validateConfig` returns an error, so no per-pair
cycle (download, fetch, update or append) is produced. -/
theorem c8_config_fail_fast (endpoints sheetNames backupDirs : String)
    (h : (pySplit endpoints ';').length ≠ (pySplit sheetNames ';').length ∨
      ((if backupDirs == "" then [] else pySplit backupDirs ';') ≠ ([] : List String) ∧
        (if backupDirs == "" then [] else pySplit backupDirs ';').length ≠
          (pySplit endpoints ';').length)) :
    ∃ msg, validateConfig endpoints sheetNames backupDirs = .error msg := by
  unfold validateConfig
  rcases h with h | ⟨h1, h2⟩
  · rw [if_pos h]
    exact ⟨_, rfl⟩
  · rcases eq_or_ne (pySplit endpoints ';').length (pySplit sheetNames ';').length with
      hu | hu
    · rw [if_neg (fun hne => hne hu), if_pos ?_]
      · exact ⟨_, rfl⟩
      · refine ⟨?_, h2⟩
        simpa [List.isEmpty_iff] using h1
    · rw [if_pos hu]
      exact ⟨_, rfl⟩

theorem c8_witness :
    ∃ msg, validateConfig "u1;u2" "s1" "" = .error msg :=
  c8_config_fail_fast "u1;u2" "s1" "" (Or.inl (by decide))

/-- Inverting a produced update entry: it came from a keyed row whose key
is in the index, carrying the looked-up position and stored row, with the
difference test positive. -/
theorem chgEntry_some_inv (idCol n : Nat) (index : List IndexEntry)
    (r : List String) (trip : Nat × List String × List String)
    (h : chgEntry idCol n index r = some trip) :
    ∃ k, keyOf idCol r = some k ∧ idxLookup index k = some (trip.1, trip.2.2) ∧
      trip.2.1 = r ∧ rowsAreDifferent trip.2.2 r n = true := by
  unfold chgEntry at h
  split at h
  · exact absurd h (by simp)
  next k hk =>
    split at h
    · exact absurd h (by simp)
    next pos erow hl =>
      split at h
      next hd =>
          rw [Option.some_inj] at h
          subst h
          exact ⟨k, hk, hl, rfl, hd⟩
      next hd => exact absurd h (by simp)

/-- Inverting a produced append entry: it is the row itself, keyed but
absent from the index. -/
theorem newEntry_some_inv (idCol : Nat) (index : List IndexEntry)
    (r rr : List String) (h : newEntry idCol index r = some rr) :
    rr = r ∧ ∃ k, keyOf idCol r = some k ∧ idxLookup index k = none := by
  unfold newEntry at h
  split at h
  · exact absurd h (by simp)
  next k hk =>
    split at h
    next hl =>
        rw [Option.some_inj] at h
        exact ⟨h.symm, k, hk, hl⟩
    next pe hl => exact absurd h (by simp)

/-- C3 (confirmed): the classifier partitions incoming rows.  The first
conjunct: the update and append lists are order-preserving filters of the
incoming rows (`filterMap`), so original order is kept in each.  The
remaining conjuncts pin each of the four verdicts to the source conditions
(skipped = unkeyed; NEW = keyed and unindexed; CHANGED = keyed, indexed
and different; UNCHANGED = keyed, indexed and identical), show every row
gets exactly one verdict (`rowClass` is total, the four cases exclusive),
and tie update/append membership to exactly the CHANGED / NEW verdicts. -/
theorem c3_key_partition (idCol n : Nat) (index : List IndexEntry)
    (rows : List (List String)) (row : List String) :
    (classifyRows idCol n index rows =
      (rows.filterMap (chgEntry idCol n index),
       rows.filterMap (newEntry idCol index))) ∧
    (rowClass idCol n index row = .skipped ∨ rowClass idCol n index row = .isNew ∨
      rowClass idCol n index row = .changed ∨ rowClass idCol n index row = .unchanged) ∧
    (rowClass idCol n index row = .skipped ↔ keyOf idCol row = none) ∧
    (rowClass idCol n index row = .isNew ↔
      ∃ k, keyOf idCol row = some k ∧ idxLookup index k = none) ∧
    (rowClass idCol n index row = .changed ↔
      ∃ k pos erow, keyOf idCol row = some k ∧ idxLookup index k = some (pos, erow) ∧
        rowsAreDifferent erow row n = true) ∧
    (rowClass idCol n index row = .unchanged ↔
      ∃ k pos erow, keyOf idCol row = some k ∧ idxLookup index k = some (pos, erow) ∧
        rowsAreDifferent erow row n = false) ∧
    (chgEntry idCol n index row).isSome =
      decide (rowClass idCol n index row = .changed) ∧
    (newEntry idCol index row).isSome =
      decide (rowClass idCol n index row = .isNew) := by
  refine ⟨classifyRows_eq idCol n index rows, ?_⟩
  unfold rowClass chgEntry newEntry
  cases hk : keyOf idCol row with
  | none => simp
  | some k =>
      cases hl : idxLookup index k with
      | none => simp [hl]
      | some pe =>
          obtain ⟨pos, erow⟩ := pe
          cases hd : rowsAreDifferent erow row n <;> simp [hl, hd] <;>
            exact ⟨pos, erow, ⟨rfl, rfl⟩, hd⟩

/-- C6 (confirmed): the identity index maps `k` to `(position, row)` iff
some data row at 0-based index `i` has key field parsing to `k`, the
position is `i + 2` (header at sheet position 1, first data row at 2),
and no later data row has key `k` (last-wins on duplicates); the lookup
misses iff no data row (long enough and integer-keyed) has key `k`, so
short or non-integer rows are silently excluded. -/
theorem c6_index_last_wins (idCol : Nat) (dataRows : List (List String))
    (k : Int) (pos : Nat) (row : List String) :
    (idxLookup (buildIndex idCol dataRows) k = some (pos, row) ↔
      ∃ i, dataRows[i]? = some row ∧ keyOf idCol row = some k ∧ pos = i + 2 ∧
        ∀ j r2, i < j → dataRows[j]? = some r2 → keyOf idCol r2 ≠ some k) ∧
    (idxLookup (buildIndex idCol dataRows) k = none ↔
      ∀ r2 ∈ dataRows, keyOf idCol r2 ≠ some k) := by
  constructor
  · rw [idxLookup_buildIndex]
    constructor
    · intro h
      cases hrec : lastKeyed idCol k dataRows with
      | none => rw [hrec] at h; exact absurd h (by simp)
      | some e =>
          obtain ⟨j, r⟩ := e
          rw [hrec] at h
          simp only [Option.map_some', Option.some_inj] at h
          injection h with hp hr
          obtain ⟨hget, hkey, hlast⟩ :=
            (lastKeyed_some_iff idCol k dataRows j r).1 hrec
          subst hr
          exact ⟨j, hget, hkey, hp.symm, hlast⟩
    · rintro ⟨i, hget, hkey, hpos, hlast⟩
      rw [(lastKeyed_some_iff idCol k dataRows i row).2 ⟨hget, hkey, hlast⟩]
      simp [hpos]
  · rw [idxLookup_buildIndex]
    constructor
    · intro h r2 hm hk2
      cases hrec : lastKeyed idCol k dataRows with
      | some e => rw [hrec] at h; exact absurd h (by simp)
      | none => exact (lastKeyed_none_iff idCol k dataRows).1 hrec r2 hm hk2
    · intro hall
      rw [(lastKeyed_none_iff idCol k dataRows).2 hall]
      rfl

/-- C10 (confirmed): with a nonempty store, every update operation the
plan emits targets a sheet position `≥ 2`, so position 1 — the stored
header row — is never addressed and applying the update set leaves the
header unchanged. -/
theorem c10_header_never_updated (csvRows store : List (List String))
    (updTs sepTs : String) (p : Plan)
    (hstore : store ≠ [])
    (hp : buildPlan csvRows store updTs sepTs = some p) :
    (∀ pv ∈ p.updates, 2 ≤ pv.1) ∧
    (applyUpdates store p.updates)[0]? = store[0]? := by
  have hpos : ∀ pv ∈ p.updates, 2 ≤ pv.1 := by
    cases csvRows with
    | nil => exact absurd hp (by simp [buildPlan])
    | cons header rest =>
        have hne : store.isEmpty = false := by
          simpa [List.isEmpty_iff] using hstore
        simp only [buildPlan, hne, Bool.false_eq_true, if_false] at hp
        cases Option.some_inj.1 hp
        intro pv hm
        simp only [classifyRows_eq, List.mem_map] at hm
        obtain ⟨trip, htrip, hpv⟩ := hm
        obtain ⟨r, _, hchg⟩ := List.mem_filterMap.1 htrip
        obtain ⟨k, hk, hl, _, _⟩ := chgEntry_some_inv _ _ _ _ _ hchg
        obtain ⟨h2, _, _⟩ := idxLookup_some_inv _ _ _ _ _ hl
        rw [← hpv]
        exact h2
  exact ⟨hpos, applyUpdates_getElem_zero p.updates hpos store⟩

theorem c10_witness :
    (∀ pv ∈ (⟨[(2, ["1", "T"])], []⟩ : Plan).updates, 2 ≤ pv.1) ∧
    (applyUpdates [["id"], ["1"]] (⟨[(2, ["1", "T"])], []⟩ : Plan).updates)[0]? =
      [["id"], ["1"]][0]? :=
  c10_header_never_updated [["id"], ["1", "x"]] [["id"], ["1"]] "T" "S"
    (⟨[(2, ["1", "T"])], []⟩ : Plan) (by decide) (by decide)

/-- The resolved key column is inside a nonempty header. -/
theorem resolveKeyColumn_lt (header : List String) (h : header ≠ []) :
    resolveKeyColumn header < header.length := by
  unfold resolveKeyColumn
  cases hf : (header.map pyLower).findIdx? (fun s => s == "id") with
  | none => simpa using List.length_pos.2 h
  | some i =>
      have hi := (List.findIdx?_eq_some_iff_findIdx_eq.1 hf).1
      simpa using hi

/-- C4 (corrected): the append batch is either empty or consists of a
nonempty base followed by exactly one audit row (the separator), i.e. the
audit row is appended iff at least one row is appended; the audit row's
first field is the non-blank timestamped message, its remaining fields
are empty strings, and its length is `max 1 columnCount` — equal to the
source header's column count whenever the header is nonempty.  (The
original claim said the length always equals the column count; that fails
for an empty header, where the audit row still has one field.) -/
theorem c4_audit_row_amended (csvRows store : List (List String))
    (updTs sepTs : String) (header : List String) (rest : List (List String))
    (p : Plan) (hcsv : csvRows = header :: rest)
    (hp : buildPlan csvRows store updTs sepTs = some p) :
    (p.appends = [] ∨
      (p.appends.dropLast ≠ [] ∧
        p.appends.getLast? = some (sepRow header.length sepTs))) ∧
    pyBlank ((sepRow header.length sepTs).headD "") = false ∧
    (sepRow header.length sepTs).tail.all (fun f => f == "") = true ∧
    (sepRow header.length sepTs).length = max 1 header.length := by
  subst hcsv
  refine ⟨?_, ?_, ?_, ?_⟩
  · have hsep : ∀ base : List (List String),
        finishAppends base header.length sepTs = p.appends →
        (p.appends = [] ∨
          (p.appends.dropLast ≠ [] ∧
            p.appends.getLast? = some (sepRow header.length sepTs))) := by
      intro base hb
      unfold finishAppends at hb
      cases base with
      | nil => left; rw [← hb]; rfl
      | cons b bs =>
          right
          simp only [List.isEmpty_cons, Bool.false_eq_true, if_false] at hb
          rw [← hb]
          refine ⟨?_, List.getLast?_concat _⟩
          rw [List.dropLast_concat]
          simp
    cases hs : store.isEmpty with
    | true =>
        simp only [buildPlan, hs, if_true] at hp
        exact hsep (header :: rest) (congrArg Plan.appends (Option.some_inj.1 hp))
    | false =>
        simp only [buildPlan, hs, Bool.false_eq_true, if_false] at hp
        exact hsep _ (congrArg Plan.appends (Option.some_inj.1 hp))
  · show (("journal updated at " ++ sepTs)).data.all isPySpace = false
    rw [show ("journal updated at " ++ sepTs).data =
      "journal updated at ".data ++ sepTs.data from rfl, List.all_append]
    have h1 : "journal updated at ".data.all isPySpace = false := by decide
    rw [h1]
    rfl
  · show (List.replicate (header.length - 1) "").all (fun f => f == "") = true
    refine List.all_eq_true.2 ?_
    intro f hf
    rw [List.eq_of_mem_replicate hf]
    rfl
  · show (List.replicate (header.length - 1) "").length + 1 = max 1 header.length
    rw [List.length_replicate]
    omega

/-- C4 counterexample: with an empty source header (column count 0) and
an empty store, the bootstrap append produces an audit row of length 1,
not length 0 = the header's column count. -/
theorem c4_counterexample :
    buildPlan [[]] [] "t" "u" = some ⟨[], [[], ["journal updated at u"]]⟩ ∧
    (([[], ["journal updated at u"]] : List (List String)).getLastD []).length ≠
      ([] : List String).length := by
  exact ⟨by decide, by decide⟩

theorem c4_witness :
    ((⟨[], [["a"], ["journal updated at u"]]⟩ : Plan).appends = [] ∨
      ((⟨[], [["a"], ["journal updated at u"]]⟩ : Plan).appends.dropLast ≠ [] ∧
        (⟨[], [["a"], ["journal updated at u"]]⟩ : Plan).appends.getLast? =
          some (sepRow (["a"] : List String).length "u"))) ∧
    pyBlank ((sepRow (["a"] : List String).length "u").headD "") = false ∧
    (sepRow (["a"] : List String).length "u").tail.all (fun f => f == "") = true ∧
    (sepRow (["a"] : List String).length "u").length =
      max 1 (["a"] : List String).length :=
  c4_audit_row_amended [["a"]] [] "t" "u" ["a"] []
    (⟨[], [["a"], ["journal updated at u"]]⟩ : Plan) rfl (by decide)

/-! ## Second-cycle behaviour (C1) -/

/-- A merged-and-timestamped update row keeps the incoming row's key: the
key field of the incoming row parses, hence is non-blank, hence survives
the merge, and the appended timestamp column sits beyond it. -/
theorem keyOf_merge (idCol n : Nat) (erow nrow : List String) (k : Int)
    (ts : String) (hIdCol : idCol < n) (hkey : keyOf idCol nrow = some k) :
    keyOf idCol (mergeRows erow nrow n ++ [ts]) = some k := by
  unfold keyOf at hkey ⊢
  split at hkey
  case isTrue hlt =>
    have hlen : (mergeRows erow nrow n ++ [ts]).length = n + 1 := by
      simp [mergeRows_length]
    rw [if_pos (by rw [hlen]; omega)]
    have hgetapp : (mergeRows erow nrow n ++ [ts]).getD idCol "" =
        (mergeRows erow nrow n).getD idCol "" := by
      rw [List.getD_eq_getElem?_getD, List.getD_eq_getElem?_getD,
        List.getElem?_append_left (by rw [mergeRows_length]; exact hIdCol)]
    rw [hgetapp, mergeRows_getD _ _ _ _ hIdCol]
    have hnb : pyBlank (nrow.getD idCol "") = false := by
      cases hb : pyBlank (nrow.getD idCol "") with
      | false => rfl
      | true => rw [pyBlank_pyInt _ hb] at hkey; exact absurd hkey (by simp)
    rw [hnb]
    simp only [Bool.false_eq_true, if_false]
    exact hkey
  case isFalse => exact absurd hkey (by simp)

/-- Applying a bootstrap plan to the empty store yields the incoming table
followed by the separator row. -/
theorem secondCycle_bootstrap (header : List String) (rest : List (List String))
    (updTs1 sepTs1 : String) (p1 : Plan)
    (hp1 : buildPlan (header :: rest) [] updTs1 sepTs1 = some p1) :
    applyPlan [] p1 = header :: (rest ++ [sepRow header.length sepTs1]) := by
  simp only [buildPlan, List.isEmpty_nil, if_true] at hp1
  cases Option.some_inj.1 hp1
  unfold applyPlan applyUpdates finishAppends
  simp

/-- After one cycle's plan is applied, every keyed incoming row's key is
still carried by some data row of the resulting store: NEW rows were
appended verbatim, indexed rows sit at their position either untouched or
overwritten by a merged row with the same key. -/
theorem secondCycle_key_covered (header : List String)
    (rest store : List (List String)) (updTs1 sepTs1 : String) (p1 : Plan)
    (hheader : header ≠ [])
    (hp1 : buildPlan (header :: rest) store updTs1 sepTs1 = some p1)
    (r : List String) (k : Int) (hr : r ∈ rest)
    (hk : keyOf (resolveKeyColumn header) r = some k) :
    ∃ row ∈ (applyPlan store p1).drop 1,
      keyOf (resolveKeyColumn header) row = some k := by
  have hIdCol : resolveKeyColumn header < header.length :=
    resolveKeyColumn_lt header hheader
  cases hs : store.isEmpty with
  | true =>
      have hst : store = [] := List.isEmpty_iff.1 hs
      subst hst
      rw [secondCycle_bootstrap header rest updTs1 sepTs1 p1 hp1]
      refine ⟨r, ?_, hk⟩
      show r ∈ rest ++ [sepRow header.length sepTs1]
      exact List.mem_append_left _ hr
  | false =>
      have hlen : 0 < store.length := by
        cases store with
        | nil => simp at hs
        | cons a l => simp
      simp only [buildPlan, hs, Bool.false_eq_true, if_false] at hp1
      cases Option.some_inj.1 hp1
      unfold applyPlan
      simp only []
      have hCU : ∀ pv ∈ (classifyRows (resolveKeyColumn header) header.length
          (buildIndex (resolveKeyColumn header) (store.drop 1)) rest).1.map
            (fun e => (e.1, mergeRows e.2.2 e.2.1 header.length ++ [updTs1])),
          ∃ k1 erow1,
            idxLookup (buildIndex (resolveKeyColumn header) (store.drop 1)) k1 =
              some (pv.1, erow1) ∧
            keyOf (resolveKeyColumn header) pv.2 = some k1 := by
        intro pv hpv
        rw [classifyRows_eq] at hpv
        obtain ⟨trip, htrip, rfl⟩ := List.mem_map.1 hpv
        obtain ⟨r2, _, hchg⟩ := List.mem_filterMap.1 htrip
        obtain ⟨k1, hk1, hl1x, hr1x, _⟩ := chgEntry_some_inv _ _ _ _ _ hchg
        refine ⟨k1, trip.2.2, hl1x, ?_⟩
        apply keyOf_merge _ _ _ _ _ _ hIdCol
        rw [hr1x]
        exact hk1
      have hbase : ∀ k2 pos erow,
          idxLookup (buildIndex (resolveKeyColumn header) (store.drop 1)) k2 =
            some (pos, erow) →
          ∃ row, store[pos - 1]? = some row ∧
            keyOf (resolveKeyColumn header) row = some k2 := by
        intro k2 pos erow hl2
        obtain ⟨h2, hget, hkey⟩ := idxLookup_some_inv _ _ _ _ _ hl2
        refine ⟨erow, ?_, hkey⟩
        rw [show pos - 1 = 1 + (pos - 2) from by omega, ← List.getElem?_drop]
        exact hget
      have hgood := applyUpdates_keeps_keys (resolveKeyColumn header) store _
        store hCU rfl hbase
      cases hl1 : idxLookup (buildIndex (resolveKeyColumn header) (store.drop 1)) k with
      | some pe =>
          obtain ⟨pos, erow⟩ := pe
          obtain ⟨row, hrow, hkrow⟩ := hgood k pos erow hl1
          obtain ⟨h2, hget, _⟩ := idxLookup_some_inv _ _ _ _ _ hl1
          refine ⟨row, ?_, hkrow⟩
          rw [List.drop_append_of_le_length
            (by rw [applyUpdates_length]; omega)]
          apply List.mem_append_left
          have hin : ((applyUpdates store
              ((classifyRows (resolveKeyColumn header) header.length
                (buildIndex (resolveKeyColumn header) (store.drop 1)) rest).1.map
                  (fun e => (e.1, mergeRows e.2.2 e.2.1 header.length ++ [updTs1])))).drop
                1)[pos - 2]? = some row := by
            rw [List.getElem?_drop, show 1 + (pos - 2) = pos - 1 from by omega]
            exact hrow
          exact List.getElem?_mem hin
      | none =>
          have hnew : newEntry (resolveKeyColumn header)
              (buildIndex (resolveKeyColumn header) (store.drop 1)) r = some r := by
            unfold newEntry
            rw [hk]
            show (match idxLookup (buildIndex (resolveKeyColumn header)
                (store.drop 1)) k with
              | none => some r
              | some _ => none) = some r
            rw [hl1]
          have hrapp : r ∈ (classifyRows (resolveKeyColumn header) header.length
              (buildIndex (resolveKeyColumn header) (store.drop 1)) rest).2 := by
            rw [classifyRows_eq]
            exact List.mem_filterMap.2 ⟨r, hr, hnew⟩
          refine ⟨r, ?_, hk⟩
          rw [List.drop_append_of_le_length
            (by rw [applyUpdates_length]; omega)]
          apply List.mem_append_right
          unfold finishAppends
          have hcls : (classifyRows (resolveKeyColumn header) header.length
              (buildIndex (resolveKeyColumn header) (store.drop 1)) rest).2.isEmpty =
              false := by
            cases hcl : (classifyRows (resolveKeyColumn header) header.length
                (buildIndex (resolveKeyColumn header) (store.drop 1)) rest).2 with
            | nil => rw [hcl] at hrapp; simp at hrapp
            | cons a l => rfl
          rw [hcls]
          simp only [Bool.false_eq_true, if_false]
          exact List.mem_append_left _ hrapp

/-- Reconciling the same source table against the store produced by the
first cycle appends nothing: every keyed row resolves in the new index,
so no NEW rows arise and no separator row is added. -/
theorem secondCycle_appends_nil (header : List String)
    (rest store : List (List String))
    (updTs1 sepTs1 updTs2 sepTs2 : String) (p1 p2 : Plan)
    (hheader : header ≠ [])
    (hp1 : buildPlan (header :: rest) store updTs1 sepTs1 = some p1)
    (hp2 : buildPlan (header :: rest) (applyPlan store p1) updTs2 sepTs2 = some p2) :
    p2.appends = [] := by
  have hs2 : (applyPlan store p1).isEmpty = false := by
    cases hs : store.isEmpty with
    | true =>
        have hst : store = [] := List.isEmpty_iff.1 hs
        subst hst
        rw [secondCycle_bootstrap header rest updTs1 sepTs1 p1 hp1]
        rfl
    | false =>
        have hlen : 0 < store.length := by
          cases store with
          | nil => simp at hs
          | cons a l => simp
        unfold applyPlan
        have hlen2 : 0 < (applyUpdates store p1.updates).length := by
          rw [applyUpdates_length]
          exact hlen
        cases happ : applyUpdates store p1.updates with
        | nil => rw [happ] at hlen2; simp at hlen2
        | cons a l => rfl
  simp only [buildPlan, hs2, Bool.false_eq_true, if_false] at hp2
  cases Option.some_inj.1 hp2
  show finishAppends (classifyRows (resolveKeyColumn header) header.length
    (buildIndex (resolveKeyColumn header) ((applyPlan store p1).drop 1)) rest).2
    header.length sepTs2 = []
  have hnil : (classifyRows (resolveKeyColumn header) header.length
      (buildIndex (resolveKeyColumn header) ((applyPlan store p1).drop 1)) rest).2 =
      [] := by
    rw [classifyRows_eq]
    refine List.filterMap_eq_nil_iff.2 ?_
    intro r hr
    cases hk : keyOf (resolveKeyColumn header) r with
    | none => unfold newEntry; rw [hk]
    | some k =>
        obtain ⟨row, hrow, hkrow⟩ := secondCycle_key_covered header rest store
          updTs1 sepTs1 p1 hheader hp1 r k hr hk
        have hlne := idxLookup_ne_none_of_mem (resolveKeyColumn header)
          ((applyPlan store p1).drop 1) k row hrow hkrow
        unfold newEntry
        rw [hk]
        show (match idxLookup (buildIndex (resolveKeyColumn header)
            ((applyPlan store p1).drop 1)) k with
          | none => some r
          | some _ => none) = none
        cases hl : idxLookup (buildIndex (resolveKeyColumn header)
            ((applyPlan store p1).drop 1)) k with
        | none => exact absurd hl hlne
        | some pe => rfl
  rw [hnil]
  rfl

/-- C1 (corrected): applying one reconciliation cycle's plan and running
the same source table again gives an empty *append* batch (no row is NEW
the second time, hence no separator row either), and a row classified
UNCHANGED (keyed, found in the index, comparison negative) contributes
nothing to either list of the plan.  The original claim — that the whole
second plan is empty — is false: the update set need not be empty,
because each update writes the merged row with an extra trailing
timestamp column, so a once-updated row differs from the source row in
every later cycle. -/
theorem c1_idempotence_amended (csvRows store : List (List String))
    (updTs1 sepTs1 updTs2 sepTs2 : String)
    (header : List String) (rest : List (List String)) (p1 p2 : Plan)
    (idC nC : Nat) (indexC : List IndexEntry)
    (accC : List (Nat × List String × List String) × List (List String))
    (rowC : List String) (kC : Int) (posC : Nat) (erowC : List String)
    (hcsv : csvRows = header :: rest)
    (hheader : header ≠ [])
    (hp1 : buildPlan csvRows store updTs1 sepTs1 = some p1)
    (hp2 : buildPlan csvRows (applyPlan store p1) updTs2 sepTs2 = some p2)
    (hkC : keyOf idC rowC = some kC)
    (hlC : idxLookup indexC kC = some (posC, erowC))
    (hdC : rowsAreDifferent erowC rowC nC = false) :
    p2.appends = [] ∧ classifyStep idC nC indexC accC rowC = accC := by
  subst hcsv
  constructor
  · exact secondCycle_appends_nil header rest store updTs1 sepTs1 updTs2 sepTs2
      p1 p2 hheader hp1 hp2
  · rw [classifyStep_eq]
    have hchg : chgEntry idC nC indexC rowC = none := by
      unfold chgEntry
      rw [hkC]
      show (match idxLookup indexC kC with
        | none => none
        | some (pos, erow) =>
          if rowsAreDifferent erow rowC nC = true then some (pos, rowC, erow)
          else none) = none
      rw [hlC]
      show (if rowsAreDifferent erowC rowC nC = true then some (posC, rowC, erowC)
        else none) = none
      rw [hdC]
      rfl
    have hnw : newEntry idC indexC rowC = none := by
      unfold newEntry
      rw [hkC]
      show (match idxLookup indexC kC with
        | none => some rowC
        | some _ => none) = none
      rw [hlC]
    rw [hchg, hnw]
    simp

/-- C1 counterexample: store `[["id","x"],["1","a"]]`, source rows
`[["id","x"],["1","b"]]`.  The first cycle updates row 2 to
`["1","b","TU1"]`; reconciling the identical source against the updated
store yields a second plan whose update set is again nonempty (the
trailing timestamp makes the stored row differ), refuting "the second
cycle's plan is empty". -/
theorem c1_counterexample :
    buildPlan [["id", "x"], ["1", "b"]] [["id", "x"], ["1", "a"]] "TU1" "TS1" =
      some ⟨[(2, ["1", "b", "TU1"])], []⟩ ∧
    buildPlan [["id", "x"], ["1", "b"]]
      (applyPlan [["id", "x"], ["1", "a"]] ⟨[(2, ["1", "b", "TU1"])], []⟩)
      "TU2" "TS2" = some ⟨[(2, ["1", "b", "TU2"])], []⟩ ∧
    ([(2, ["1", "b", "TU2"])] : List (Nat × List String)) ≠ [] := by
  exact ⟨by decide, by decide, by decide⟩

theorem c1_witness :
    (⟨[(2, ["1", "b", "TU2"])], []⟩ : Plan).appends = [] ∧
    classifyStep 0 2 [((1 : Int), 2, ["1", "b"])] ([], []) ["1", "b"] = ([], []) :=
  c1_idempotence_amended [["id", "x"], ["1", "b"]] [["id", "x"], ["1", "a"]]
    "TU1" "TS1" "TU2" "TS2" ["id", "x"] [["1", "b"]]
    (⟨[(2, ["1", "b", "TU1"])], []⟩ : Plan) (⟨[(2, ["1", "b", "TU2"])], []⟩ : Plan)
    0 2 [((1 : Int), 2, ["1", "b"])] ([], []) ["1", "b"] 1 2 ["1", "b"]
    rfl (by decide) (by decide) (by decide) (by decide) (by decide) (by decide)
